import Mathlib

/-!
# A shallow embedding of `fixed_vec` (src/src/fixed_vec.rs and src/src/fixed_vec/iter.rs)

`FixedVec<T>` in the Rust source is a fixed-capacity vector backed by a raw
buffer of `cap` slots, a reservation counter `next_idx` and a publication
counter `len`.  We model the buffer as a `List (Option T)` whose `i`-th entry
is `some t` when slot `i` has been initialized with `t` and `none` when the
slot is still uninitialized memory.  The atomic counters become plain natural
number fields; all claims under verification are about sequential executions,
where each atomic load/store/fetch-add acts as an ordinary read/write.

The publication step of `push` is a `compare_exchange_weak` retry loop that
terminates only once `len` equals the reserved index; in a sequential
execution a state with `len ≠ idx` would spin forever, so `push` returns an
`Option`, with `none` standing for that divergence.  The sequential
well-formedness invariant `FixedVec.WF` rules the divergence out.
-/

set_option autoImplicit false

universe u

variable {T : Type}

/-- The `FixedVec<T>` struct of the source: `ptr` (the buffer contents, one
entry per slot), `next_idx` (reservation counter), `len` (publication
counter), `cap` (immutable capacity). -/
structure FixedVec (T : Type) where
  buf : List (Option T)
  next_idx : Nat
  len : Nat
  cap : Nat
  deriving Repr, DecidableEq

/-- `FixedVec::new(capacity)`: allocates a buffer of `capacity` uninitialized
slots and zeroes both counters.  (The layout-overflow check and the
zero-size/dangling-pointer special case concern machine sizes and are
modelled separately by `layoutArraySize`, `newChecked` and `dealloc_vec`
below; they do not change the abstract slot contents.) -/
def FixedVec.new (T : Type) (capacity : Nat) : FixedVec T :=
  { buf := List.replicate capacity none
    next_idx := 0
    len := 0
    cap := capacity }

/-- `FixedVec::push`.  `fetch_add` reserves slot `idx` and bumps `next_idx`.
If `idx < cap` the value is written into slot `idx` and the
`compare_exchange_weak` loop publishes `len = idx + 1`; sequentially that
loop terminates exactly when `len = idx` held before it, so the other case
is modelled as `none` (divergence).  If `idx ≥ cap` the reservation is void
and the value is handed back as `Except.error value`; `next_idx` is not
rolled back. -/
def FixedVec.push (v : FixedVec T) (x : T) : Option (FixedVec T × Except T Unit) :=
  let idx := v.next_idx
  if idx < v.cap then
    let written : FixedVec T :=
      { v with next_idx := idx + 1, buf := v.buf.set idx (some x) }
    if written.len = idx then
      some ({ written with len := idx + 1 }, Except.ok ())
    else
      none
  else
    some ({ v with next_idx := idx + 1 }, Except.error x)

/-- `FixedVec::realloc`: allocate a fresh vector of doubled capacity
(`0 → 1`), raw-copy the first `len` slots over, set the new vector's
`next_idx` and `len` to the carried-over length, and replace `self`.
(The old vector's `len` is reset to 0 before it is dropped; drop behaviour
is modelled separately by `FixedVec.dropVec`.) -/
def FixedVec.realloc (v : FixedVec T) : FixedVec T :=
  let len := v.len
  let new_cap := if v.cap = 0 then 1 else v.cap * 2
  let new_vec := FixedVec.new T new_cap
  { buf := v.buf.take len ++ new_vec.buf.drop len
    next_idx := len
    len := len
    cap := new_cap }

/-- `FixedVec::len`: load of the publication counter. -/
def FixedVec.length (v : FixedVec T) : Nat :=
  v.len

/-- `FixedVec::capacity`. -/
def FixedVec.capacity (v : FixedVec T) : Nat :=
  v.cap

/-- `FixedVec::as_slice`: the first `len` slots read as initialized values
(`slice::from_raw_parts(ptr, len)`).  Uninitialized slots below `len` would
be undefined behaviour in the source; under `WF` they cannot occur, and
`filterMap id` then reads off exactly the stored values. -/
def FixedVec.as_slice (v : FixedVec T) : List T :=
  (v.buf.take v.len).filterMap id

/-- `<FixedVec as Deref>::deref` followed by slice indexing:
`vec.get(i)` returns `Some` of the element exactly when `i < len`. -/
def FixedVec.get (v : FixedVec T) (i : Nat) : Option T :=
  v.as_slice[i]?

/-- Sequential well-formedness: the buffer really has `cap` slots and the
publication counter trails the reservation counter, clamped at `cap`.
Every sequential execution maintains this, and it makes the publication
CAS loop of `push` terminate at once. -/
def FixedVec.WF (v : FixedVec T) : Prop :=
  v.buf.length = v.cap ∧ v.len = min v.next_idx v.cap

instance (v : FixedVec T) : Decidable v.WF := by
  unfold FixedVec.WF
  infer_instance

/-- `v.Rep l`: the published prefix of `v` holds exactly the values of `l`,
slot by slot: `len = l.length` and slot `i` contains `some l[i]?` for
every `i < l.length`. -/
def FixedVec.Rep (v : FixedVec T) (l : List T) : Prop :=
  v.len = l.length ∧ ∀ i, i < l.length → v.buf[i]? = some l[i]?

theorem FixedVec.new_WF (capacity : Nat) : (FixedVec.new T capacity).WF := by
  refine ⟨?_, ?_⟩ <;> simp [FixedVec.new]

theorem FixedVec.new_Rep (capacity : Nat) : (FixedVec.new T capacity).Rep [] := by
  refine ⟨rfl, ?_⟩
  intro i hi
  simp at hi

theorem FixedVec.as_slice_eq {v : FixedVec T} {l : List T} (h : v.Rep l) :
    v.as_slice = l := by
  obtain ⟨hlen, hslot⟩ := h
  have hbuf : v.buf.take v.len = l.map some := by
    apply List.ext_getElem?
    intro i
    by_cases hi : i < l.length
    · rw [List.getElem?_take_of_lt (by omega), hslot i hi, List.getElem?_map]
      cases hl : l[i]? with
      | none =>
        rw [List.getElem?_eq_none_iff] at hl
        omega
      | some t => simp
    · have h1 : (v.buf.take v.len)[i]? = none := by
        rw [List.getElem?_eq_none_iff]
        have := List.length_take v.len v.buf
        omega
      have h2 : (l.map some)[i]? = none := by
        rw [List.getElem?_eq_none_iff]
        simp
        omega
      rw [h1, h2]
  rw [FixedVec.as_slice, hbuf]
  simp

theorem FixedVec.get_eq {v : FixedVec T} {l : List T} (h : v.Rep l) (i : Nat) :
    v.get i = l[i]? := by
  rw [FixedVec.get, FixedVec.as_slice_eq h]

theorem FixedVec.push_spec_lt {v : FixedVec T} {l : List T}
    (hwf : v.WF) (hrep : v.Rep l) (hlt : v.next_idx < v.cap) (x : T) :
    ∃ v', v.push x = some (v', Except.ok ()) ∧ v'.WF ∧ v'.Rep (l ++ [x]) ∧
      v'.cap = v.cap ∧ v'.next_idx = v.next_idx + 1 ∧ v'.len = v.len + 1 := by
  obtain ⟨hbl, hmin⟩ := hwf
  obtain ⟨hlen, hslot⟩ := hrep
  have hlv : v.len = v.next_idx := by omega
  refine ⟨{ buf := v.buf.set v.next_idx (some x),
            next_idx := v.next_idx + 1,
            len := v.next_idx + 1,
            cap := v.cap }, ?_, ?_, ?_, rfl, rfl, by simp [hlv]⟩
  · rw [FixedVec.push]
    simp only [hlt, if_pos]
    rw [if_pos hlv]
  · refine ⟨by simp [hbl], by simp; omega⟩
  · refine ⟨by simp; omega, ?_⟩
    intro i hi
    simp only [List.length_append, List.length_cons, List.length_nil] at hi
    show (v.buf.set v.next_idx (some x))[i]? = some (l ++ [x])[i]?
    by_cases hieq : i = v.next_idx
    · subst hieq
      rw [List.getElem?_set_self (by omega)]
      have hx : (l ++ [x])[v.next_idx]? = some x := by
        have := List.getElem?_concat_length l x
        rw [← hlen, hlv] at this
        exact this
      rw [hx]
    · have hilt : i < l.length := by omega
      rw [List.getElem?_set_ne (by omega), hslot i hilt,
        List.getElem?_append_left hilt]

theorem FixedVec.push_spec_ge {v : FixedVec T} {l : List T}
    (hwf : v.WF) (hrep : v.Rep l) (hge : v.cap ≤ v.next_idx) (x : T) :
    v.push x = some ({ v with next_idx := v.next_idx + 1 }, Except.error x) ∧
    FixedVec.WF { v with next_idx := v.next_idx + 1 } ∧
    FixedVec.Rep { v with next_idx := v.next_idx + 1 } l := by
  obtain ⟨hbl, hmin⟩ := hwf
  obtain ⟨hlen, hslot⟩ := hrep
  refine ⟨?_, ⟨hbl, by simp; omega⟩, ⟨hlen, hslot⟩⟩
  rw [FixedVec.push]
  simp only [if_neg (by omega : ¬ v.next_idx < v.cap)]

theorem FixedVec.realloc_spec {v : FixedVec T} {l : List T}
    (hwf : v.WF) (hrep : v.Rep l) :
    (v.realloc).WF ∧ (v.realloc).Rep l ∧
    (v.realloc).cap = (if v.cap = 0 then 1 else v.cap * 2) ∧
    (v.realloc).next_idx = v.len ∧ (v.realloc).len = v.len ∧
    v.len < (v.realloc).cap := by
  obtain ⟨hbl, hmin⟩ := hwf
  obtain ⟨hlen, hslot⟩ := hrep
  have hcap : v.len ≤ v.cap := by omega
  have hnewcap : v.len < (if v.cap = 0 then 1 else v.cap * 2) := by
    by_cases h0 : v.cap = 0 <;> simp [h0] <;> omega
  refine ⟨⟨?_, ?_⟩, ⟨hlen, ?_⟩, rfl, rfl, rfl, hnewcap⟩
  · simp [FixedVec.realloc, FixedVec.new]
    omega
  · simp [FixedVec.realloc]
    omega
  · intro i hi
    show (v.buf.take v.len ++ _)[i]? = _
    rw [List.getElem?_append_left (by rw [List.length_take]; omega),
      List.getElem?_take_of_lt (by omega)]
    exact hslot i hi

/-- Push every element of `xs` in order, collecting each push's result.
(This is the driver loop used by the tests and by claims about repeated
pushes; it is not itself a source function.) -/
def FixedVec.pushAll (v : FixedVec T) (xs : List T) :
    Option (FixedVec T × List (Except T Unit)) :=
  match xs with
  | [] => some (v, [])
  | x :: rest => do
    let (v1, r) ← v.push x
    let (v2, rs) ← v1.pushAll rest
    pure (v2, r :: rs)

theorem FixedVec.pushAll_ok {v : FixedVec T} {l : List T} (xs : List T)
    (hwf : v.WF) (hrep : v.Rep l) (hfit : v.next_idx + xs.length ≤ v.cap) :
    ∃ v', v.pushAll xs = some (v', xs.map fun _ => Except.ok ()) ∧
      v'.WF ∧ v'.Rep (l ++ xs) ∧ v'.cap = v.cap ∧
      v'.next_idx = v.next_idx + xs.length ∧ v'.len = v.len + xs.length := by
  induction xs generalizing v l with
  | nil =>
    exact ⟨v, rfl, hwf, by simpa using hrep, rfl, rfl, rfl⟩
  | cons x rest ih =>
    obtain ⟨v1, hpush, hwf1, hrep1, hcap1, hidx1, hlen1⟩ :=
      FixedVec.push_spec_lt hwf hrep (by simp at hfit; omega) x
    obtain ⟨v2, hrest, hwf2, hrep2, hcap2, hidx2, hlen2⟩ :=
      ih hwf1 hrep1 (by simp at hfit ⊢; omega)
    refine ⟨v2, ?_, hwf2, by simpa using hrep2, by omega, by simp; omega,
      by simp; omega⟩
    rw [FixedVec.pushAll, hpush]
    simp only [Option.bind_eq_bind, Option.some_bind, hrest]
    rfl

/-- C1: for every capacity `c ≥ 0` and container constructed with `new(c)`,
after exactly `c` successful push calls `len()` equals `c`, and the
`(c+1)`-th push fails, returning ownership of the exact value passed in,
unmodified. -/
theorem claim_C1 (c : Nat) (xs : List T) (hlen : xs.length = c) (y : T) :
    ∃ v, (FixedVec.new T c).pushAll xs
        = some (v, xs.map fun _ => Except.ok ()) ∧
      v.length = c ∧
      ∃ v', v.push y = some (v', Except.error y) := by
  obtain ⟨v, hall, hwf, hrep, hcap, hidx, hl⟩ :=
    FixedVec.pushAll_ok xs (FixedVec.new_WF c) (FixedVec.new_Rep c)
      (by simp [FixedVec.new, hlen])
  obtain ⟨herr, -, -⟩ :=
    FixedVec.push_spec_ge hwf hrep (by simp [FixedVec.new, hlen] at hidx hcap; omega) y
  exact ⟨v, hall, by simp [FixedVec.new, FixedVec.length] at hl ⊢; omega,
    _, herr⟩

theorem claim_C1_witness :
    ∃ v, (FixedVec.new Nat 2).pushAll [5, 7]
        = some (v, [5, 7].map fun _ => Except.ok ()) ∧
      v.length = 2 ∧
      ∃ v', v.push 9 = some (v', Except.error 9) :=
  claim_C1 2 [5, 7] rfl 9

/-- C2: `get(i)` returns the exact value written at slot `i` whenever
`i < len()` (in particular the value just pushed is readable at its slot),
returns `none` whenever `i ≥ len()`, and never fails with an error (its
return type is `Option T`); once an index is present its value never changes
across subsequent pushes. -/
theorem claim_C2 {v : FixedVec T} {l : List T} (hwf : v.WF) (hrep : v.Rep l)
    (x : T) :
    (∀ i, v.length ≤ i → v.get i = none) ∧
    (∀ i, i < v.length → (v.get i).isSome) ∧
    (∀ v' r, v.push x = some (v', r) → ∀ i, i < v.length → v'.get i = v.get i) ∧
    (∀ v', v.push x = some (v', Except.ok ()) → v'.get v.length = some x) := by
  have hlen : v.length = l.length := hrep.1
  refine ⟨?_, ?_, ?_, ?_⟩
  · intro i hi
    rw [FixedVec.get_eq hrep]
    exact List.getElem?_eq_none (by omega)
  · intro i hi
    rw [FixedVec.get_eq hrep, List.getElem?_eq_getElem (by omega)]
    rfl
  · intro v' r hp i hi
    by_cases hlt : v.next_idx < v.cap
    · obtain ⟨v'', hpush, -, hrep', -, -, -⟩ :=
        FixedVec.push_spec_lt hwf hrep hlt x
      rw [hpush] at hp
      have hv : v'' = v' := congrArg Prod.fst (Option.some.inj hp)
      rw [← hv, FixedVec.get_eq hrep', FixedVec.get_eq hrep,
        List.getElem?_append_left (by omega)]
    · obtain ⟨hpush, -, hrep'⟩ :=
        FixedVec.push_spec_ge hwf hrep (by omega) x
      rw [hpush] at hp
      have : ({ v with next_idx := v.next_idx + 1 } : FixedVec T) = v' :=
        congrArg Prod.fst (Option.some.inj hp)
      rw [← this, FixedVec.get_eq hrep', FixedVec.get_eq hrep]
  · intro v' hp
    by_cases hlt : v.next_idx < v.cap
    · obtain ⟨v'', hpush, -, hrep', -, -, -⟩ :=
        FixedVec.push_spec_lt hwf hrep hlt x
      rw [hpush] at hp
      have : v'' = v' := congrArg Prod.fst (Option.some.inj hp)
      rw [← this, FixedVec.get_eq hrep', hlen,
        List.getElem?_concat_length]
    · obtain ⟨hpush, -, -⟩ :=
        FixedVec.push_spec_ge hwf hrep (by omega) x
      rw [hpush] at hp
      have := congrArg Prod.snd (Option.some.inj hp)
      simp at this

instance {S : Type} [DecidableEq S] (v : FixedVec S) (l : List S) :
    Decidable (v.Rep l) := by
  unfold FixedVec.Rep
  infer_instance

/-- A sample well-formed state used by the concrete witnesses: one value
published, one free slot. -/
def sampleVec : FixedVec Nat :=
  { buf := [some 3, none], next_idx := 1, len := 1, cap := 2 }

theorem claim_C2_witness :
    (∀ i, sampleVec.length ≤ i → sampleVec.get i = none) ∧
    (∀ i, i < sampleVec.length → (sampleVec.get i).isSome) ∧
    (∀ v' r, sampleVec.push 9 = some (v', r) →
      ∀ i, i < sampleVec.length → v'.get i = sampleVec.get i) ∧
    (∀ v', sampleVec.push 9 = some (v', Except.ok ()) →
      v'.get sampleVec.length = some 9) :=
  claim_C2 (v := sampleVec) (l := [3]) (by decide) (by decide) 9

/-- C3: `realloc()` doubles the capacity (`0 → 1`), sets the new container's
reservation counter (`next_idx`) and publication counter (`len`) to the
carried-over length, and preserves `len()` and every `get(i)` identically. -/
theorem claim_C3 {v : FixedVec T} {l : List T} (hwf : v.WF) (hrep : v.Rep l) :
    (v.realloc).capacity = (if v.capacity = 0 then 1 else v.capacity * 2) ∧
    (v.realloc).next_idx = v.length ∧
    (v.realloc).len = v.length ∧
    (v.realloc).length = v.length ∧
    (∀ i, (v.realloc).get i = v.get i) := by
  obtain ⟨hwf', hrep', hcap, hidx, hl, -⟩ := FixedVec.realloc_spec hwf hrep
  refine ⟨hcap, hidx, hl, hl, ?_⟩
  intro i
  rw [FixedVec.get_eq hrep', FixedVec.get_eq hrep]

theorem claim_C3_witness :
    (sampleVec.realloc).capacity
        = (if sampleVec.capacity = 0 then 1 else sampleVec.capacity * 2) ∧
    (sampleVec.realloc).next_idx = sampleVec.length ∧
    (sampleVec.realloc).len = sampleVec.length ∧
    (sampleVec.realloc).length = sampleVec.length ∧
    (∀ i, (sampleVec.realloc).get i = sampleVec.get i) :=
  claim_C3 (v := sampleVec) (l := [3]) (by decide) (by decide)

/-- C4: a push that fails because the reserved index reached capacity does
not roll back the reservation counter (`next_idx` still advances by one),
and every subsequent push on the same container, absent a realloc, fails
too (again advancing the counter). -/
theorem claim_C4 {v v' : FixedVec T} {x : T}
    (h : v.push x = some (v', Except.error x)) (y : T) :
    v'.next_idx = v.next_idx + 1 ∧ v'.cap = v.cap ∧
    ∃ v'', v'.push y = some (v'', Except.error y) ∧
      v''.next_idx = v'.next_idx + 1 := by
  simp only [FixedVec.push] at h
  split at h
  · split at h
    · exact absurd (congrArg Prod.snd (Option.some.inj h)) (by simp)
    · exact Option.noConfusion h
  · next hge =>
    have hv : v' = { v with next_idx := v.next_idx + 1 } :=
      (congrArg Prod.fst (Option.some.inj h)).symm
    subst hv
    refine ⟨rfl, rfl, ⟨{ v with next_idx := v.next_idx + 1 + 1 }, ?_, rfl⟩⟩
    have hno : ¬ ({ v with next_idx := v.next_idx + 1 } : FixedVec T).next_idx
        < ({ v with next_idx := v.next_idx + 1 } : FixedVec T).cap := by
      simp
      omega
    simp only [FixedVec.push, if_neg hno]

theorem claim_C4_witness :
    ({ buf := [], next_idx := 1, len := 0, cap := 0 } : FixedVec Nat).next_idx
        = (FixedVec.new Nat 0).next_idx + 1 ∧
    ({ buf := [], next_idx := 1, len := 0, cap := 0 } : FixedVec Nat).cap
        = (FixedVec.new Nat 0).cap ∧
    ∃ v'', ({ buf := [], next_idx := 1, len := 0, cap := 0 } : FixedVec Nat).push 7
        = some (v'', Except.error 7) ∧
      v''.next_idx
        = ({ buf := [], next_idx := 1, len := 0, cap := 0 } : FixedVec Nat).next_idx + 1 :=
  claim_C4 (v := FixedVec.new Nat 0) (x := 5) (by rfl) 7

/-- The `IntoIter<T>` struct of src/src/fixed_vec/iter.rs: the moved-out
buffer (`ptr`), the half-open interval of not-yet-yielded slots, and the
original capacity (kept for deallocation).  The source's `end` field is
called `stop` here because `end` is a Lean keyword. -/
structure IntoIter (T : Type) where
  buf : List (Option T)
  start : Nat
  stop : Nat
  cap : Nat
  deriving Repr, DecidableEq

/-- `<FixedVec as IntoIterator>::into_iter`: the buffer pointer moves into
the iterator with interval `[0, len)`; the source container is wrapped in
`ManuallyDrop`, disarming its destructor. -/
def FixedVec.into_iter (v : FixedVec T) : IntoIter T :=
  { buf := v.buf, start := 0, stop := v.len, cap := v.cap }

/-- `IntoIter::next`: yield `ptr.add(start).read()` and advance `start`,
or `none` when `start == end`.  Reading an uninitialized slot would be
undefined behaviour; the `Models` invariant below rules it out, and the
`Option.join` then extracts exactly the stored value. -/
def IntoIter.next (it : IntoIter T) : Option T × IntoIter T :=
  if it.start = it.stop then
    (none, it)
  else
    ((it.buf[it.start]?).join, { it with start := it.start + 1 })

/-- `DoubleEndedIterator::next_back`: yield `ptr.add(end - 1).read()` and
retract `end`, or `none` when `end == start`. -/
def IntoIter.next_back (it : IntoIter T) : Option T × IntoIter T :=
  if it.stop = it.start then
    (none, it)
  else
    ((it.buf[it.stop - 1]?).join, { it with stop := it.stop - 1 })

/-- `Iterator::size_hint`: `(end - start, Some(end - start))`. -/
def IntoIter.size_hint (it : IntoIter T) : Nat × Option Nat :=
  (it.stop - it.start, some (it.stop - it.start))

/-- `Iterator::count`: `end - start`. -/
def IntoIter.count (it : IntoIter T) : Nat :=
  it.stop - it.start

/-- The sublist of `l` at indices `[a, b)`. -/
def listSlice (l : List T) (a b : Nat) : List T :=
  (l.drop a).take (b - a)

/-- Invariant tying an owning iterator to the published sequence `orig` it
was created from: the remaining interval is well-formed and every slot
below `stop` still holds the corresponding element of `orig`. -/
def IntoIter.Models (it : IntoIter T) (orig : List T) : Prop :=
  it.start ≤ it.stop ∧ it.stop ≤ orig.length ∧
  ∀ i, i < it.stop → it.buf[i]? = some orig[i]?

theorem FixedVec.into_iter_models {v : FixedVec T} {l : List T}
    (hrep : v.Rep l) : (v.into_iter).Models l := by
  obtain ⟨hlen, hslot⟩ := hrep
  refine ⟨?_, ?_, ?_⟩
  · simp [FixedVec.into_iter]
  · simp only [FixedVec.into_iter]
    omega
  · intro i hi
    simp only [FixedVec.into_iter] at hi ⊢
    exact hslot i (by omega)

theorem listSlice_self (l : List T) (a : Nat) : listSlice l a a = [] := by
  simp [listSlice]

theorem listSlice_cons {l : List T} {a b : Nat} (hab : a < b)
    (hal : a < l.length) :
    ∃ x, l[a]? = some x ∧ listSlice l a b = x :: listSlice l (a + 1) b := by
  refine ⟨l[a], List.getElem?_eq_getElem hal, ?_⟩
  rw [listSlice, List.drop_eq_getElem_cons hal]
  have : b - a = (b - (a + 1)) + 1 := by omega
  rw [this, List.take_succ_cons]
  rfl

theorem listSlice_snoc {l : List T} {a b : Nat} (hab : a < b)
    (hbl : b ≤ l.length) :
    ∃ x, l[b - 1]? = some x ∧
      listSlice l a b = listSlice l a (b - 1) ++ [x] := by
  refine ⟨l.get ⟨b - 1, by omega⟩, by rw [List.getElem?_eq_getElem (by omega)]; rfl, ?_⟩
  rw [listSlice, listSlice]
  have hba : b - a = (b - 1 - a) + 1 := by omega
  rw [hba, List.take_succ]
  have hdrop : (l.drop a)[b - 1 - a]? = l[b - 1]? := by
    rw [List.getElem?_drop]
    congr 1
    omega
  rw [hdrop, List.getElem?_eq_getElem (by omega : b - 1 < l.length)]
  rfl

theorem IntoIter.next_spec {it : IntoIter T} {orig : List T}
    (hm : it.Models orig) (hne : it.start ≠ it.stop) :
    ∃ x, orig[it.start]? = some x ∧
      it.next = (some x, { it with start := it.start + 1 }) ∧
      IntoIter.Models { it with start := it.start + 1 } orig := by
  obtain ⟨h1, h2, h3⟩ := hm
  have hlt : it.start < orig.length := by omega
  refine ⟨orig[it.start], List.getElem?_eq_getElem hlt, ?_, ?_, h2, ?_⟩
  · rw [IntoIter.next, if_neg hne, h3 it.start (by omega),
      List.getElem?_eq_getElem hlt]
    rfl
  · simp only []
    omega
  · intro i hi
    exact h3 i hi

theorem IntoIter.next_back_spec {it : IntoIter T} {orig : List T}
    (hm : it.Models orig) (hne : it.stop ≠ it.start) :
    ∃ x, orig[it.stop - 1]? = some x ∧
      it.next_back = (some x, { it with stop := it.stop - 1 }) ∧
      IntoIter.Models { it with stop := it.stop - 1 } orig := by
  obtain ⟨h1, h2, h3⟩ := hm
  have hlt : it.stop - 1 < orig.length := by omega
  refine ⟨orig[it.stop - 1], List.getElem?_eq_getElem hlt, ?_, ?_, ?_, ?_⟩
  · rw [IntoIter.next_back, if_neg hne, h3 (it.stop - 1) (by omega),
      List.getElem?_eq_getElem hlt]
    rfl
  · simp only []
    omega
  · simp only []
    omega
  · intro i hi
    simp only [] at hi
    exact h3 i (by omega)

/-- Run the owning iterator under a schedule of calls, `true` meaning
`next` (forward) and `false` meaning `next_back` (backward): returns the
values yielded forward (in yield order), the values yielded backward (in
yield order), and the final iterator state.  This is the driver for the
mixed-consumption claim; each step is exactly one source iterator call. -/
def IntoIter.consume (it : IntoIter T) : List Bool → List T × List T × IntoIter T
  | [] => ([], [], it)
  | b :: sch =>
    if b then
      match it.next with
      | (some x, it1) =>
        let (f, bk, it2) := it1.consume sch
        (x :: f, bk, it2)
      | (none, it1) => it1.consume sch
    else
      match it.next_back with
      | (some x, it1) =>
        let (f, bk, it2) := it1.consume sch
        (f, x :: bk, it2)
      | (none, it1) => it1.consume sch

theorem IntoIter.consume_true {it it1 : IntoIter T} {x : T} (sch : List Bool)
    (h : it.next = (some x, it1)) :
    it.consume (true :: sch)
      = (x :: (it1.consume sch).1, (it1.consume sch).2.1,
         (it1.consume sch).2.2) := by
  rw [IntoIter.consume, h]
  simp only [if_pos]

theorem IntoIter.consume_true_none {it it1 : IntoIter T} (sch : List Bool)
    (h : it.next = (none, it1)) :
    it.consume (true :: sch) = it1.consume sch := by
  rw [IntoIter.consume, h]
  simp

theorem IntoIter.consume_false {it it1 : IntoIter T} {x : T} (sch : List Bool)
    (h : it.next_back = (some x, it1)) :
    it.consume (false :: sch)
      = ((it1.consume sch).1, x :: (it1.consume sch).2.1,
         (it1.consume sch).2.2) := by
  rw [IntoIter.consume, h]
  simp only [Bool.false_eq_true, if_neg]
  rcases hc : it1.consume sch with ⟨f, bk, it2⟩
  simp [hc]

theorem IntoIter.consume_false_none {it it1 : IntoIter T} (sch : List Bool)
    (h : it.next_back = (none, it1)) :
    it.consume (false :: sch) = it1.consume sch := by
  rw [IntoIter.consume, h]
  simp

theorem IntoIter.consume_spec {orig : List T} (sch : List Bool)
    {it : IntoIter T} (hm : it.Models orig) :
    ∃ f bk it', it.consume sch = (f, bk, it') ∧ it'.Models orig ∧
      it.start ≤ it'.start ∧ it'.stop ≤ it.stop ∧
      f = listSlice orig it.start it'.start ∧
      bk.reverse = listSlice orig it'.stop it.stop ∧
      (it.stop - it.start ≤ sch.length → it'.start = it'.stop) := by
  induction sch generalizing it with
  | nil =>
    refine ⟨[], [], it, rfl, hm, Nat.le_refl _, Nat.le_refl _,
      (listSlice_self orig it.start).symm, ?_, ?_⟩
    · simp [listSlice_self]
    · intro h
      have := hm.1
      simp at h
      omega
  | cons b sch ih =>
    cases b with
    | true =>
      by_cases hne : it.start = it.stop
      · have hnext : it.next = (none, it) := by
          rw [IntoIter.next, if_pos hne]
        obtain ⟨f, bk, it', heq, hm', h1, h2, hf, hbk, hfull⟩ := ih hm
        refine ⟨f, bk, it', ?_, hm', h1, h2, hf, hbk,
          fun _ => hfull (by omega)⟩
        rw [IntoIter.consume_true_none sch hnext, heq]
      · obtain ⟨x, hx, hnext, hm1⟩ := IntoIter.next_spec hm hne
        obtain ⟨f, bk, it', heq, hm', h1, h2, hf, hbk, hfull⟩ := ih hm1
        simp only [] at h1 h2 hf hbk hfull
        have hstart : it.start < it'.start := by omega
        have hlen : it.start < orig.length := by
          obtain ⟨ha, hb, -⟩ := hm
          omega
        obtain ⟨y, hy, hslice⟩ := listSlice_cons hstart hlen
        rw [hx] at hy
        refine ⟨x :: f, bk, it', ?_, hm', by omega, h2, ?_, hbk, ?_⟩
        · rw [IntoIter.consume_true sch hnext, heq]
        · rw [hslice, hf, Option.some.inj hy]
        · intro h
          simp at h
          exact hfull (by omega)
    | false =>
      by_cases hne : it.stop = it.start
      · have hnext : it.next_back = (none, it) := by
          rw [IntoIter.next_back, if_pos hne]
        obtain ⟨f, bk, it', heq, hm', h1, h2, hf, hbk, hfull⟩ := ih hm
        refine ⟨f, bk, it', ?_, hm', h1, h2, hf, hbk,
          fun _ => hfull (by omega)⟩
        rw [IntoIter.consume_false_none sch hnext, heq]
      · obtain ⟨x, hx, hnext, hm1⟩ := IntoIter.next_back_spec hm hne
        obtain ⟨f, bk, it', heq, hm', h1, h2, hf, hbk, hfull⟩ := ih hm1
        simp only [] at h1 h2 hf hbk hfull
        have hstop1 : 1 ≤ it.stop := by
          obtain ⟨ha, -, -⟩ := hm
          omega
        have hstop : it'.stop < it.stop := by omega
        have hlen : it.stop ≤ orig.length := hm.2.1
        obtain ⟨y, hy, hslice⟩ := listSlice_snoc hstop hlen
        rw [hx] at hy
        refine ⟨f, x :: bk, it', ?_, hm', h1, by omega, hf, ?_, ?_⟩
        · rw [IntoIter.consume_false sch hnext, heq]
        · rw [List.reverse_cons, hslice, hbk, Option.some.inj hy]
        · intro h
          simp at h
          exact hfull (by omega)

theorem listSlice_decomp {l : List T} {a b : Nat} (hab : a ≤ b)
    (_hbl : b ≤ l.length) :
    listSlice l 0 a ++ listSlice l a b ++ listSlice l b l.length = l := by
  have h1 : listSlice l 0 a = l.take a := by
    simp [listSlice]
  have h2 : listSlice l b l.length = l.drop b := by
    rw [listSlice]
    exact List.take_of_length_le (by simp)
  have h3 : listSlice l a b = (l.take b).drop a := by
    rw [listSlice, List.take_drop]
    congr 2
    omega
  have h4 : l.take a = (l.take b).take a := by
    rw [List.take_take]
    congr 1
    omega
  rw [h1, h2, h3, h4, List.take_append_drop, List.take_append_drop]

/-- C6: under any interleaving of forward (`next`) and backward
(`next_back`) consumption, the forward yields are exactly the prefix
`[0, start)` of the original published sequence and the backward yields
exactly the suffix `[stop, len)` (so no index is ever yielded twice), the
yields reassembled in original index order together with the unconsumed
middle equal the original sequence; `size_hint` and `count` always report
exactly `end - start`; and a schedule of at least `len()` calls exhausts
the iterator, the reassembled yields then being the original sequence
exactly. -/
theorem claim_C6 {v : FixedVec T} {l : List T} (hrep : v.Rep l)
    (sch : List Bool) :
    ∃ f bk it', (v.into_iter).consume sch = (f, bk, it') ∧
      f = listSlice l 0 it'.start ∧
      bk.reverse = listSlice l it'.stop l.length ∧
      it'.start ≤ it'.stop ∧
      f ++ listSlice l it'.start it'.stop ++ bk.reverse = l ∧
      it'.size_hint = (it'.stop - it'.start, some (it'.stop - it'.start)) ∧
      it'.count = it'.stop - it'.start ∧
      (v.length ≤ sch.length → f ++ bk.reverse = l) := by
  have hm := FixedVec.into_iter_models hrep
  obtain ⟨f, bk, it', heq, hm', h1, h2, hf, hbk, hfull⟩ :=
    IntoIter.consume_spec sch hm
  simp only [FixedVec.into_iter] at h1 h2 hf hbk hfull
  obtain ⟨hss, hsl, -⟩ := hm'
  have hlen : v.len = l.length := hrep.1
  have hbk' : bk.reverse = listSlice l it'.stop l.length := by
    rw [hbk, hlen]
  have hmain : f ++ listSlice l it'.start it'.stop ++ bk.reverse = l := by
    rw [hf, hbk']
    exact listSlice_decomp hss (by omega)
  refine ⟨f, bk, it', heq, hf, hbk', hss, hmain, rfl, rfl, ?_⟩
  intro hsch
  have hex : it'.start = it'.stop := hfull (by
    simp only [FixedVec.length] at hsch
    omega)
  have : listSlice l it'.start it'.stop = [] := by
    rw [hex]
    exact listSlice_self l it'.stop
  rw [this] at hmain
  simpa using hmain

theorem claim_C6_witness :
    ∃ f bk it', (sampleVec.into_iter).consume [false, true] = (f, bk, it') ∧
      f = listSlice [3] 0 it'.start ∧
      bk.reverse = listSlice [3] it'.stop [3].length ∧
      it'.start ≤ it'.stop ∧
      f ++ listSlice [3] it'.start it'.stop ++ bk.reverse = [3] ∧
      it'.size_hint = (it'.stop - it'.start, some (it'.stop - it'.start)) ∧
      it'.count = it'.stop - it'.start ∧
      (sampleVec.length ≤ [false, true].length → f ++ bk.reverse = [3]) :=
  claim_C6 (v := sampleVec) (l := [3]) (by decide) [false, true]

/-- Events observable during destruction: an element's destructor running,
or the buffer deallocation performed by `dealloc_vec`. -/
inductive DropEvent (T : Type) where
  | elem (t : T) : DropEvent T
  | dealloc : DropEvent T
  deriving Repr, DecidableEq

/-- `ptr::drop_in_place` over a slice of elements, with a panic model:
`panics t = true` means the destructor of `t` panics.  Elements are
dropped in order and the returned flag records whether a panic unwound out
of the loop.  (What the compiler's slice drop glue does with the elements
after a panicking one is not modelled; no claim below depends on it.) -/
def drop_in_place (panics : T → Bool) : List T → List (DropEvent T) × Bool
  | [] => ([], false)
  | x :: rest =>
    if panics x then
      ([DropEvent.elem x], true)
    else
      let (evs, p) := drop_in_place panics rest
      (DropEvent.elem x :: evs, p)

/-- `<FixedVec as Drop>::drop`: a `DropGuard` holding `ptr`/`cap` is
created first, the published elements `[0, len)` are dropped in place, and
the guard's own drop deallocates the buffer on scope exit — also when an
element's destructor panicked, which is why the `dealloc` event is
appended unconditionally. -/
def FixedVec.dropVec (panics : T → Bool) (v : FixedVec T) :
    List (DropEvent T) × Bool :=
  let (evs, p) := drop_in_place panics v.as_slice
  (evs ++ [DropEvent.dealloc], p)

/-- The not-yet-yielded initialized elements of an owning iterator: the
slots of the interval `[start, end)` read as values. -/
def IntoIter.remainingElems (it : IntoIter T) : List T :=
  ((it.buf.drop it.start).take (it.stop - it.start)).filterMap id

/-- `<IntoIter as Drop>::drop`: same `DropGuard` discipline as the
container's drop, over the remaining interval `[start, end)`. -/
def IntoIter.dropIter (panics : T → Bool) (it : IntoIter T) :
    List (DropEvent T) × Bool :=
  let (evs, p) := drop_in_place panics it.remainingElems
  (evs ++ [DropEvent.dealloc], p)

/-- Number of `dealloc` events in a trace. -/
def countDealloc : List (DropEvent T) → Nat
  | [] => 0
  | DropEvent.elem _ :: rest => countDealloc rest
  | DropEvent.dealloc :: rest => 1 + countDealloc rest

theorem drop_in_place_no_panic (xs : List T) :
    drop_in_place (fun _ => false) xs = (xs.map DropEvent.elem, false) := by
  induction xs with
  | nil => rfl
  | cons x rest ih =>
    rw [drop_in_place, if_neg (by simp), ih]
    rfl

theorem countDealloc_append (a b : List (DropEvent T)) :
    countDealloc (a ++ b) = countDealloc a + countDealloc b := by
  induction a with
  | nil => simp [countDealloc]
  | cons e rest ih =>
    cases e with
    | elem t => simp [countDealloc, ih]
    | dealloc => simp [countDealloc, ih]; omega

theorem countDealloc_drop_in_place (panics : T → Bool) (xs : List T) :
    countDealloc (drop_in_place panics xs).1 = 0 := by
  induction xs with
  | nil => rfl
  | cons x rest ih =>
    rw [drop_in_place]
    by_cases hp : panics x
    · rw [if_pos hp]
      rfl
    · rw [if_neg hp]
      rcases h : drop_in_place panics rest with ⟨evs, p⟩
      rw [h] at ih
      simpa [countDealloc] using ih

theorem FixedVec.dropVec_fst (panics : T → Bool) (v : FixedVec T) :
    (v.dropVec panics).1
      = (drop_in_place panics v.as_slice).1 ++ [DropEvent.dealloc] := by
  rw [FixedVec.dropVec]

theorem IntoIter.dropIter_fst (panics : T → Bool) (it : IntoIter T) :
    (it.dropIter panics).1
      = (drop_in_place panics it.remainingElems).1 ++ [DropEvent.dealloc] := by
  rw [IntoIter.dropIter]

theorem IntoIter.remainingElems_eq {it : IntoIter T} {orig : List T}
    (hm : it.Models orig) :
    it.remainingElems = listSlice orig it.start it.stop := by
  obtain ⟨h1, h2, h3⟩ := hm
  have hbuflen : it.stop ≤ it.buf.length := by
    by_cases h0 : it.stop = 0
    · omega
    · have := h3 (it.stop - 1) (by omega)
      have hlt : it.stop - 1 < it.buf.length := by
        by_contra hge
        rw [List.getElem?_eq_none (by omega)] at this
        exact Option.noConfusion this
      omega
  have hkey : (it.buf.drop it.start).take (it.stop - it.start)
      = (listSlice orig it.start it.stop).map some := by
    apply List.ext_getElem?
    intro i
    by_cases hi : i < it.stop - it.start
    · rw [List.getElem?_take_of_lt hi, List.getElem?_drop,
        h3 (it.start + i) (by omega)]
      rw [List.getElem?_map, listSlice, List.getElem?_take_of_lt hi,
        List.getElem?_drop]
      rw [List.getElem?_eq_getElem (by omega)]
      rfl
    · have hl1 : ((it.buf.drop it.start).take (it.stop - it.start))[i]? = none := by
        rw [List.getElem?_eq_none]
        simp [List.length_take, List.length_drop]
        omega
      have hl2 : ((listSlice orig it.start it.stop).map some)[i]? = none := by
        rw [List.getElem?_eq_none]
        simp [listSlice, List.length_take, List.length_drop]
        omega
      rw [hl1, hl2]
  rw [IntoIter.remainingElems, hkey]
  simp

/-- C5: dropping a container drops each published element exactly once (in
index order) and then deallocates the buffer exactly once; dropping a
partially consumed owning iterator drops each unconsumed element of
`[start, end)` exactly once and deallocates exactly once; and in both
paths the `dealloc` event still occurs exactly once even when an element's
destructor panics. -/
theorem claim_C5 {v : FixedVec T} {l : List T} (hrep : v.Rep l)
    {it : IntoIter T} {orig : List T} (hm : it.Models orig)
    (panics : T → Bool) :
    (v.dropVec (fun _ => false)).1
        = l.map DropEvent.elem ++ [DropEvent.dealloc] ∧
    countDealloc (v.dropVec panics).1 = 1 ∧
    (it.dropIter (fun _ => false)).1
        = (listSlice orig it.start it.stop).map DropEvent.elem
            ++ [DropEvent.dealloc] ∧
    countDealloc (it.dropIter panics).1 = 1 := by
  refine ⟨?_, ?_, ?_, ?_⟩
  · rw [FixedVec.dropVec_fst, drop_in_place_no_panic,
      FixedVec.as_slice_eq hrep]
  · rw [FixedVec.dropVec_fst, countDealloc_append,
      countDealloc_drop_in_place]
    rfl
  · rw [IntoIter.dropIter_fst, drop_in_place_no_panic,
      IntoIter.remainingElems_eq hm]
  · rw [IntoIter.dropIter_fst, countDealloc_append,
      countDealloc_drop_in_place]
    rfl

instance {S : Type} [DecidableEq S] (it : IntoIter S) (orig : List S) :
    Decidable (it.Models orig) := by
  unfold IntoIter.Models
  infer_instance

theorem claim_C5_witness :
    ((sampleVec.dropVec (fun _ => false)).1
        = [3].map DropEvent.elem ++ [DropEvent.dealloc]) ∧
    countDealloc (sampleVec.dropVec (fun t => decide (t = 3))).1 = 1 ∧
    ((sampleVec.into_iter.dropIter (fun _ => false)).1
        = (listSlice [3] sampleVec.into_iter.start
            sampleVec.into_iter.stop).map DropEvent.elem
          ++ [DropEvent.dealloc]) ∧
    countDealloc (sampleVec.into_iter.dropIter (fun t => decide (t = 3))).1
        = 1 :=
  @claim_C5 Nat sampleVec [3] (by decide) sampleVec.into_iter [3] (by decide)
    (fun t => decide (t = 3))

/-- The loop body shared by `FromIterator::from_iter` and `Extend::extend`:
push each item in order; when a push is rejected (`Err(item)`), `realloc`
and re-push the returned item, discarding the retry's result
(`let _ = vec.push(item)`). -/
def FixedVec.extendList (v : FixedVec T) (xs : List T) : Option (FixedVec T) :=
  match xs with
  | [] => some v
  | x :: rest => do
    let (v1, r) ← v.push x
    match r with
    | Except.ok _ => v1.extendList rest
    | Except.error x1 => do
      let v2 := v1.realloc
      let (v3, _) ← v2.push x1
      v3.extendList rest

/-- `FromIterator::from_iter` modelled for an iterator that produces the
list `xs` and whose size hint makes `upper.unwrap_or(lower)` equal
`capHint` (an exact-size iterator reports `xs.length`; an unknown-size one
may report anything, e.g. 0): `Self::new(cap)` followed by the shared
extend loop. -/
def FixedVec.from_iterHint (T : Type) (capHint : Nat) (xs : List T) :
    Option (FixedVec T) :=
  (FixedVec.new T capHint).extendList xs

theorem FixedVec.extendList_spec {v : FixedVec T} {l : List T} (xs : List T)
    (hwf : v.WF) (hrep : v.Rep l) :
    ∃ w, v.extendList xs = some w ∧ w.WF ∧ w.Rep (l ++ xs) := by
  induction xs generalizing v l with
  | nil =>
    exact ⟨v, rfl, hwf, by simpa using hrep⟩
  | cons x rest ih =>
    by_cases hlt : v.next_idx < v.cap
    · obtain ⟨v1, hp, hwf1, hrep1, -, -, -⟩ :=
        FixedVec.push_spec_lt hwf hrep hlt x
      obtain ⟨w, hw, hwfw, hrepw⟩ := ih hwf1 hrep1
      refine ⟨w, ?_, hwfw, by simpa using hrepw⟩
      rw [FixedVec.extendList, hp]
      simpa using hw
    · obtain ⟨hp, hwf1, hrep1⟩ :=
        FixedVec.push_spec_ge hwf hrep (by omega) x
      obtain ⟨hwf2, hrep2, hcap2, hidx2, hlen2, hroom⟩ :=
        FixedVec.realloc_spec hwf1 hrep1
      obtain ⟨v3, hp3, hwf3, hrep3, -, -, -⟩ :=
        FixedVec.push_spec_lt hwf2 hrep2 (by omega) x
      obtain ⟨w, hw, hwfw, hrepw⟩ := ih hwf3 hrep3
      refine ⟨w, ?_, hwfw, by simpa using hrepw⟩
      rw [FixedVec.extendList, hp]
      simp only [Option.bind_eq_bind, Option.some_bind]
      rw [hp3]
      simpa using hw

/-- C7: construction from an iterator (`FromIterator`, here with an
arbitrary size-hint capacity, so pushes may be rejected and growth kicks
in automatically) and incremental extension (`Extend`) push one item at a
time, realloc on rejection, and for every finite input the resulting
container holds exactly the input items, in input order, appended to any
previously published ones — no item lost. -/
theorem claim_C7 (capHint : Nat) (xs : List T) {v : FixedVec T} {l : List T}
    (hwf : v.WF) (hrep : v.Rep l) :
    (∃ w, FixedVec.from_iterHint T capHint xs = some w ∧ w.as_slice = xs) ∧
    (∃ w, v.extendList xs = some w ∧ w.as_slice = l ++ xs) := by
  constructor
  · obtain ⟨w, hw, hwfw, hrepw⟩ :=
      FixedVec.extendList_spec xs (FixedVec.new_WF capHint)
        (FixedVec.new_Rep capHint)
    exact ⟨w, hw, by simpa using FixedVec.as_slice_eq hrepw⟩
  · obtain ⟨w, hw, hwfw, hrepw⟩ := FixedVec.extendList_spec xs hwf hrep
    exact ⟨w, hw, FixedVec.as_slice_eq hrepw⟩

theorem claim_C7_witness :
    (∃ w, FixedVec.from_iterHint Nat 0 [4, 5, 6] = some w ∧
      w.as_slice = [4, 5, 6]) ∧
    (∃ w, sampleVec.extendList [4, 5, 6] = some w ∧
      w.as_slice = [3] ++ [4, 5, 6]) :=
  claim_C7 (v := sampleVec) (l := [3]) 0 [4, 5, 6] (by decide) (by decide)

/-- `<FixedVec as Clone>::clone`: `Self::new(self.cap)`, then for `i` in
`0..len`, `if let Some(item) = self.get(i)` re-push `item.clone()` onto
the fresh vector, discarding the push's result.  Cloning a value in the
model is the identity (a clone is an equal value); the fresh container is
built by pushes, inheriting `push`'s `Option` (CAS divergence) monad. -/
def FixedVec.cloneVec (v : FixedVec T) : Option (FixedVec T) :=
  (List.range v.len).foldlM
    (fun acc i =>
      match v.get i with
      | some item => (acc.push item).map Prod.fst
      | none => some acc)
    (FixedVec.new T v.cap)

theorem FixedVec.cloneLoop_spec {v : FixedVec T} {l : List T} (hrep : v.Rep l)
    (k : Nat) : ∀ (a : Nat), a + k ≤ l.length →
    ∀ {acc : FixedVec T} {m : List T}, acc.WF → acc.Rep m →
    acc.next_idx + k ≤ acc.cap →
    ∃ w, (List.range' a k).foldlM
        (fun acc i =>
          match v.get i with
          | some item => (acc.push item).map Prod.fst
          | none => some acc) acc = some w ∧
      w.WF ∧ w.Rep (m ++ listSlice l a (a + k)) ∧ w.cap = acc.cap ∧
      w.next_idx = acc.next_idx + k := by
  induction k with
  | zero =>
    intro a ha acc m hwfa hrepa hroom
    exact ⟨acc, rfl, hwfa, by simpa [listSlice_self] using hrepa, rfl, rfl⟩
  | succ k ih =>
    intro a ha acc m hwfa hrepa hroom
    have hget : v.get a = l[a]? := FixedVec.get_eq hrep a
    have hal : a < l.length := by omega
    rw [List.getElem?_eq_getElem hal] at hget
    obtain ⟨v1, hp, hwf1, hrep1, hcap1, hidx1, -⟩ :=
      FixedVec.push_spec_lt hwfa hrepa (by omega) l[a]
    obtain ⟨w, hw, hwfw, hrepw, hcapw, hidxw⟩ :=
      ih (a + 1) (by omega) hwf1 hrep1 (by omega)
    obtain ⟨y, hy, hslice⟩ :=
      listSlice_cons (by omega : a < a + (k + 1)) hal
    rw [List.getElem?_eq_getElem hal] at hy
    refine ⟨w, ?_, hwfw, ?_, by omega, by omega⟩
    · rw [List.range'_succ, List.foldlM_cons, hget]
      simp [hp, hw]
    · have harr : a + 1 + k = a + (k + 1) := by omega
      rw [harr] at hrepw
      rw [hslice, ← Option.some.inj hy]
      have hassoc : m ++ l[a] :: listSlice l (a + 1) (a + (k + 1))
          = (m ++ [l[a]]) ++ listSlice l (a + 1) (a + (k + 1)) := by
        simp
      rw [hassoc]
      exact hrepw

/-- C8: `clone()` builds a fresh container of the same capacity (its
counters start at zero and end at the carried-over length) and re-pushes
each published element in index order; the clone's `len()` and every
`get(i)` agree with the source's.  The clone is backed by a buffer from a
fresh `new`, not by the source's, so — the model being pure values — no
later operation on one container can change the other. -/
theorem claim_C8 {v : FixedVec T} {l : List T} (hwf : v.WF) (hrep : v.Rep l) :
    ∃ w, v.cloneVec = some w ∧ w.capacity = v.capacity ∧
      w.length = v.length ∧ (∀ i, w.get i = v.get i) ∧
      w.next_idx = v.length := by
  have hlen : v.len = l.length := hrep.1
  have hcap : v.len ≤ v.cap := by
    obtain ⟨-, hm⟩ := hwf
    omega
  obtain ⟨w, hw, hwfw, hrepw, hcapw, hidxw⟩ :=
    FixedVec.cloneLoop_spec hrep v.len 0 (by omega) (FixedVec.new_WF v.cap)
      (FixedVec.new_Rep v.cap) (by simp [FixedVec.new]; omega)
  have hsl : listSlice l 0 (0 + v.len) = l := by
    simp [listSlice, hlen]
  rw [hsl] at hrepw
  simp only [List.nil_append] at hrepw
  refine ⟨w, ?_, ?_, ?_, ?_, ?_⟩
  · rw [FixedVec.cloneVec, List.range_eq_range']
    exact hw
  · rw [FixedVec.capacity, FixedVec.capacity, hcapw]
    rfl
  · rw [FixedVec.length, FixedVec.length, hrepw.1, hlen]
  · intro i
    rw [FixedVec.get_eq hrepw, FixedVec.get_eq hrep]
  · rw [hidxw, FixedVec.length]
    simp [FixedVec.new]

theorem claim_C8_witness :
    ∃ w, sampleVec.cloneVec = some w ∧ w.capacity = sampleVec.capacity ∧
      w.length = sampleVec.length ∧ (∀ i, w.get i = sampleVec.get i) ∧
      w.next_idx = sampleVec.length :=
  claim_C8 (v := sampleVec) (l := [3]) (by decide) (by decide)

/-- `isize::MAX` on the 64-bit targets the crate is built for. -/
def isizeMax : Nat := 2 ^ 63 - 1

/-- `Layout::array::<T>(n)` for an element type of `elemSize` bytes:
errs (`Err(LayoutError)`, modelled as `none`) iff the total byte size
`elemSize * n` overflows `isize::MAX`; otherwise the layout's size in
bytes.  (In Rust the element size already includes its alignment
padding.) -/
def layoutArraySize (elemSize n : Nat) : Option Nat :=
  if elemSize * n ≤ isizeMax then some (elemSize * n) else none

/-- The size/allocation behaviour of `FixedVec::new`, which the abstract
`FixedVec.new` omits: `Layout::array::<T>(capacity)` is computed and
`.expect("Layout overflow")` panics on overflow (modelled as `none`); a
zero-byte layout uses `NonNull::dangling()` and performs no allocation,
any other calls `alloc` once.  Returns the abstract vector paired with
the number of `alloc` calls made. -/
def FixedVec.newChecked (T : Type) (elemSize capacity : Nat) :
    Option (FixedVec T × Nat) :=
  match layoutArraySize elemSize capacity with
  | none => none
  | some size => some (FixedVec.new T capacity, if size = 0 then 0 else 1)

/-- `dealloc_vec`: recomputes `Layout::array` (`.unwrap()`, `none` on
overflow — unreachable for a layout that was allocated) and calls
`dealloc` only if the layout size is positive; returns the number of
`dealloc` calls. -/
def dealloc_vec (elemSize capacity : Nat) : Option Nat :=
  (layoutArraySize elemSize capacity).map fun size =>
    if size = 0 then 0 else 1

/-- C9: when the storage size `elemSize * capacity` computed for the
requested capacity overflows, `Layout::array` reports the error and
`new`'s `.expect("Layout overflow")` rejects the construction (a panic,
modelled as `none`) instead of silently wrapping the size. -/
theorem claim_C9 (T : Type) {elemSize capacity : Nat}
    (hover : isizeMax < elemSize * capacity) :
    FixedVec.newChecked T elemSize capacity = none := by
  rw [FixedVec.newChecked, layoutArraySize, if_neg (by omega)]

theorem claim_C9_witness :
    FixedVec.newChecked Nat 8 (2 ^ 61) = none :=
  claim_C9 Nat (by norm_num [isizeMax])

/-- C10: for a zero-sized element type (`elemSize = 0`), and likewise for
capacity 0, `new` performs no real allocation (the dangling-pointer path;
`dealloc_vec` likewise frees nothing), yet capacity is enforced exactly as
for sized types: from `new(c)`, `c` pushes succeed, `len()` reaches `c`,
and every further push hands the value back — capacity is not treated as
unbounded for zero-sized types.  (`push` never consults the element size,
exactly as the source `push` never reads `size_of::<T>()`.) -/
theorem claim_C10 (c : Nat) (xs : List Unit) (hlen : xs.length = c) :
    (∀ elemSize, FixedVec.newChecked Unit elemSize 0
        = some (FixedVec.new Unit 0, 0)) ∧
    FixedVec.newChecked Unit 0 c = some (FixedVec.new Unit c, 0) ∧
    dealloc_vec 0 c = some 0 ∧
    (∃ v, (FixedVec.new Unit c).pushAll xs
        = some (v, xs.map fun _ => Except.ok ()) ∧ v.length = c ∧
      ∃ v', v.push () = some (v', Except.error ())) := by
  refine ⟨?_, ?_, ?_, ?_⟩
  · intro elemSize
    rw [FixedVec.newChecked, layoutArraySize, if_pos (by simp [isizeMax])]
    simp
  · rw [FixedVec.newChecked, layoutArraySize, if_pos (by simp [isizeMax])]
    simp
  · rw [dealloc_vec, layoutArraySize, if_pos (by simp [isizeMax])]
    simp
  · obtain ⟨v, hall, hwf, hrep, hcap, hidx, hl⟩ :=
      FixedVec.pushAll_ok xs (FixedVec.new_WF c) (FixedVec.new_Rep c)
        (by simp [FixedVec.new, hlen])
    obtain ⟨herr, -, -⟩ :=
      FixedVec.push_spec_ge hwf hrep
        (by simp [FixedVec.new, hlen] at hidx hcap; omega) ()
    exact ⟨v, hall, by simp [FixedVec.new, FixedVec.length] at hl ⊢; omega,
      _, herr⟩

theorem claim_C10_witness :
    (∀ elemSize, FixedVec.newChecked Unit elemSize 0
        = some (FixedVec.new Unit 0, 0)) ∧
    FixedVec.newChecked Unit 0 2 = some (FixedVec.new Unit 2, 0) ∧
    dealloc_vec 0 2 = some 0 ∧
    (∃ v, (FixedVec.new Unit 2).pushAll [(), ()]
        = some (v, [(), ()].map fun _ => Except.ok ()) ∧ v.length = 2 ∧
      ∃ v', v.push () = some (v', Except.error ())) :=
  claim_C10 2 [(), ()] rfl
